import Mathlib

/-!
Shallow embedding of the geometric core of the `gisutils` package
(`gisutils/raster.py`, `gisutils/algo.py`, `gisutils/vector.py`) over exact
rational coordinates, together with theorems settling the specification
claims about the affine pixel/coordinate mapping, the line-stitching
algorithm, and the derived line metrics (slope, sinuosity, point sampling).
-/

namespace GisUtils

/-! ## Affine maps (`gisutils/raster.py`)

The Python code uses `affine.Affine(a, b, c, d, e, f)`, the homogeneous
3x3 matrix `[[a, b, c], [d, e, f], [0, 0, 1]]` mapping a column/row pair
`(col, row, 1)` to planar coordinates `(x, y, 1)`.  Coefficients are kept
as exact rationals. -/

structure AffineMap where
  a : ℚ
  b : ℚ
  c : ℚ
  d : ℚ
  e : ℚ
  f : ℚ
deriving DecidableEq, Repr

namespace AffineMap

/-- Determinant of the linear 2x2 part, as in the `affine` library. -/
def det (A : AffineMap) : ℚ := A.a * A.e - A.b * A.d

/-- Modelled from the spec: the matrix inverse `~Affine` of the `affine`
library (external collaborator of `raster.py`), which fails on a
degenerate (singular) transform; `none` models that failure.  The
coefficient formulas are the library's cofactor expressions. -/
def invert (A : AffineMap) : Option AffineMap :=
  if A.det = 0 then none
  else
    let idet := 1 / A.det
    let ra := A.e * idet
    let rb := -A.b * idet
    let rd := -A.d * idet
    let re := A.a * idet
    some ⟨ra, rb, -A.c * ra - A.f * rb, rd, re, -A.c * rd - A.f * re⟩

end AffineMap

/-- `raster.rowcol_to_xy` (scalar form): applies the affine matrix to the
homogeneous vector `(cols, rows, 1)` and returns the planar `(x, y)`. -/
def rowcol_to_xy (rows cols : ℚ) (A : AffineMap) : ℚ × ℚ :=
  (A.a * cols + A.b * rows + A.c, A.d * cols + A.e * rows + A.f)

/-- `raster.xy_to_rowcol` (scalar form): inverts the affine, feeds the
swapped pair through `rowcol_to_xy`, floors, and flips back, exactly as the
Python source does.  `none` models the exception raised by `~Affine` on a
singular transform. -/
def xy_to_rowcol (x y : ℚ) (A : AffineMap) : Option (ℤ × ℤ) :=
  (A.invert).map fun Ainv =>
    let fl := rowcol_to_xy y x Ainv
    (⌊fl.2⌋, ⌊fl.1⌋)

/-- Modelled from the spec: `coord_to_pixel` applies the cached matrix
inverse to `(x, y, 1)`, producing the real-valued `(row, col)` pair that is
subsequently floored.  Used to state the refinement claim about
`xy_to_rowcol`. -/
def coordToPixelReal (A : AffineMap) (x y : ℚ) : Option (ℚ × ℚ) :=
  (A.invert).map fun I => (I.d * x + I.e * y + I.f, I.a * x + I.b * y + I.c)

/-- The inverse affine undoes the forward map exactly (note the row/column
swap used by `xy_to_rowcol` when it reuses `rowcol_to_xy`). -/
lemma invert_comp (A I : AffineMap) (hA : A.det ≠ 0) (hI : A.invert = some I)
    (rows cols : ℚ) :
    rowcol_to_xy (rowcol_to_xy rows cols A).2 (rowcol_to_xy rows cols A).1 I
      = (cols, rows) := by
  rw [AffineMap.invert, if_neg hA] at hI
  obtain rfl := Option.some.inj hI
  rw [AffineMap.det] at hA
  simp only [rowcol_to_xy, Prod.mk.injEq]
  constructor
  · field_simp [AffineMap.det]
    ring
  · field_simp [AffineMap.det]
    ring

/-- C1: for every invertible affine map and integer `(row, col)`, converting
pixel indices to coordinates with `rowcol_to_xy` and back with
`xy_to_rowcol` returns exactly `(row, col)`. -/
theorem xy_to_rowcol_roundtrip (A : AffineMap) (hA : A.det ≠ 0) (row col : ℤ) :
    xy_to_rowcol (rowcol_to_xy (row : ℚ) (col : ℚ) A).1
      (rowcol_to_xy (row : ℚ) (col : ℚ) A).2 A = some (row, col) := by
  have hex : ∃ I, A.invert = some I := by
    rw [AffineMap.invert, if_neg hA]
    exact ⟨_, rfl⟩
  obtain ⟨I, hI⟩ := hex
  have hc := invert_comp A I hA hI (row : ℚ) (col : ℚ)
  rw [xy_to_rowcol, hI, Option.map_some']
  show some ((fun Ainv =>
      let fl := rowcol_to_xy (rowcol_to_xy (row : ℚ) (col : ℚ) A).2
        (rowcol_to_xy (row : ℚ) (col : ℚ) A).1 Ainv
      (⌊fl.2⌋, ⌊fl.1⌋)) I) = some ((row : ℤ), (col : ℤ))
  simp only [hc]
  simp

/-- Witness for C1 at a concrete invertible affine map and indices. -/
theorem xy_to_rowcol_roundtrip_witness :
    (AffineMap.mk 2 1 5 1 (-2) 15).det ≠ 0 ∧
      xy_to_rowcol
        (rowcol_to_xy (((3 : ℤ) : ℚ)) (((7 : ℤ) : ℚ)) (AffineMap.mk 2 1 5 1 (-2) 15)).1
        (rowcol_to_xy (((3 : ℤ) : ℚ)) (((7 : ℤ) : ℚ)) (AffineMap.mk 2 1 5 1 (-2) 15)).2
        (AffineMap.mk 2 1 5 1 (-2) 15) = some (3, 7) :=
  ⟨by norm_num [AffineMap.det], xy_to_rowcol_roundtrip (AffineMap.mk 2 1 5 1 (-2) 15)
    (by norm_num [AffineMap.det]) 3 7⟩

/-- C7: `xy_to_rowcol` computes the real-valued row and column by applying
the inverse affine to `(x, y, 1)` and then floors them (the floor bracket
`⌊r⌋ ≤ r < ⌊r⌋ + 1` pins flooring as the tie-break: an exactly-integral
boundary value maps to itself, the lower-index pixel). -/
theorem xy_to_rowcol_floors (A : AffineMap) (hA : A.det ≠ 0) (x y : ℚ) :
    ∃ rc : ℚ × ℚ, coordToPixelReal A x y = some rc ∧
      xy_to_rowcol x y A = some (⌊rc.1⌋, ⌊rc.2⌋) ∧
      ((⌊rc.1⌋ : ℚ) ≤ rc.1 ∧ rc.1 < ⌊rc.1⌋ + 1) ∧
      ((⌊rc.2⌋ : ℚ) ≤ rc.2 ∧ rc.2 < ⌊rc.2⌋ + 1) := by
  have hex : ∃ I, A.invert = some I := by
    rw [AffineMap.invert, if_neg hA]
    exact ⟨_, rfl⟩
  obtain ⟨I, hI⟩ := hex
  refine ⟨(I.d * x + I.e * y + I.f, I.a * x + I.b * y + I.c), ?_, ?_, ?_, ?_⟩
  · rw [coordToPixelReal, hI, Option.map_some']
  · rw [xy_to_rowcol, hI, Option.map_some']
    simp only [rowcol_to_xy]
  · exact ⟨Int.floor_le _, Int.lt_floor_add_one _⟩
  · exact ⟨Int.floor_le _, Int.lt_floor_add_one _⟩

/-- Witness for C7 at a concrete affine map and coordinates. -/
theorem xy_to_rowcol_floors_witness :
    (AffineMap.mk 2 1 5 1 (-2) 15).det ≠ 0 ∧
      (∃ rc : ℚ × ℚ,
        coordToPixelReal (AffineMap.mk 2 1 5 1 (-2) 15) (1/2) (1/3) = some rc ∧
        xy_to_rowcol (1/2) (1/3) (AffineMap.mk 2 1 5 1 (-2) 15)
          = some (⌊rc.1⌋, ⌊rc.2⌋) ∧
        ((⌊rc.1⌋ : ℚ) ≤ rc.1 ∧ rc.1 < ⌊rc.1⌋ + 1) ∧
        ((⌊rc.2⌋ : ℚ) ≤ rc.2 ∧ rc.2 < ⌊rc.2⌋ + 1)) :=
  ⟨by norm_num [AffineMap.det], xy_to_rowcol_floors (AffineMap.mk 2 1 5 1 (-2) 15)
    (by norm_num [AffineMap.det]) (1/2) (1/3)⟩

/-! ## Line stitching (`gisutils/vector.py`, `glue_lines_together`)

Coordinates in the stitching scenarios are integral, so they are embedded
as exact integer pairs; the shapely `touches` predicate (an external
collaborator of `vector.py`) is modelled below over these exact
coordinates. -/

/-- Planar point with exact integer coordinates. -/
abbrev IPt := ℤ × ℤ

/-- Consecutive-vertex segments of a polyline. -/
def segsOf (l : List IPt) : List (IPt × IPt) := l.zip l.tail

/-- 2D cross product of `p - o` and `q - o`. -/
def cross (o p q : IPt) : ℤ := (p.1 - o.1) * (q.2 - o.2) - (p.2 - o.2) * (q.1 - o.1)

/-- `p` lies on the closed segment from `a` to `b`. -/
def onSeg (p a b : IPt) : Bool :=
  decide (cross a b p = 0 ∧ min a.1 b.1 ≤ p.1 ∧ p.1 ≤ max a.1 b.1 ∧
    min a.2 b.2 ≤ p.2 ∧ p.2 ≤ max a.2 b.2)

/-- OGC boundary of a linestring: its two endpoints, or empty when the
linestring is closed (first vertex equals last). -/
def boundary (l : List IPt) : List IPt :=
  match l.head?, l.getLast? with
  | some a, some b => if a = b then [] else [a, b]
  | _, _ => []

/-- `0 ≤ n / d ≤ 1` for a nonzero integer denominator, without division. -/
def paramInRange (n d : ℤ) : Bool :=
  if 0 < d then decide (0 ≤ n ∧ n ≤ d) else decide (d ≤ n ∧ n ≤ 0)

/-- Intersection analysis of one segment pair `(s, t)`: first component is
whether the closed segments intersect at all, second whether every common
point lies in the finite boundary-point list `bd`.  A collinear overlap of
positive length contains points outside any finite set, hence `(true,
false)`. -/
def segPairTouch (bd : List IPt) (s t : IPt × IPt) : Bool × Bool :=
  let p1 := s.1; let p2 := s.2; let q1 := t.1; let q2 := t.2
  let d1 : IPt := (p2.1 - p1.1, p2.2 - p1.2)
  let d2 : IPt := (q2.1 - q1.1, q2.2 - q1.2)
  let denom := d1.1 * d2.2 - d1.2 * d2.1
  if denom ≠ 0 then
    -- lines cross at a single point: s-parameter tnum/denom, t-parameter unum/denom
    let tnum := (q1.1 - p1.1) * d2.2 - (q1.2 - p1.2) * d2.1
    let unum := (q1.1 - p1.1) * d1.2 - (q1.2 - p1.2) * d1.1
    let hit := paramInRange tnum denom && paramInRange unum denom
    -- crossing point is (p1 * denom + tnum * d1) / denom, compared scaled
    let onBd := bd.any fun b =>
      decide (b.1 * denom = p1.1 * denom + tnum * d1.1 ∧
        b.2 * denom = p1.2 * denom + tnum * d1.2)
    (hit, !hit || onBd)
  else if d1 = (0, 0) && d2 = (0, 0) then
    let hit := decide (p1 = q1)
    (hit, !hit || bd.contains p1)
  else if d1 = (0, 0) then
    let hit := onSeg p1 q1 q2
    (hit, !hit || bd.contains p1)
  else if d2 = (0, 0) then
    let hit := onSeg q1 p1 p2
    (hit, !hit || bd.contains q1)
  else if cross p1 p2 q1 ≠ 0 then
    -- parallel but not collinear: disjoint
    (false, true)
  else
    -- collinear: compare 1-D projections along a non-degenerate axis of d1
    let proj : IPt → ℤ := fun pt => if d1.1 ≠ 0 then pt.1 else pt.2
    let lo := max (min (proj p1) (proj p2)) (min (proj q1) (proj q2))
    let hi := min (max (proj p1) (proj p2)) (max (proj q1) (proj q2))
    if lo > hi then (false, true)
    else if lo < hi then (true, false)
    else
      match [p1, p2, q1, q2].find? (fun c => proj c == lo) with
      | some c => (true, bd.contains c)
      | none => (false, true)

/-- Modelled from the spec: the shapely `touches` predicate used by
`glue_lines_together` (glossary: the geometries share at least one
boundary point but no interior overlap, i.e. they intersect and every
common point is a boundary point of one of them). -/
def touchesModel (A B : List IPt) : Bool :=
  let bd := boundary A ++ boundary B
  let prs := (segsOf A).flatMap fun s => (segsOf B).map fun t => segPairTouch bd s t
  (prs.any (·.1)) && (prs.all (·.2))

/-- Failure modes of `glue_lines_together`: a missing seed id (pandas
`KeyError` from `.loc`) or the `ValueError` carrying the number of
touching candidates found. -/
inductive GlueError where
  | seedNotFound : GlueError
  | badMatchCount : ℕ → GlueError
deriving DecidableEq, Repr

/-- One stitchable segment: its id-column value and its vertex list. -/
abbrev Seg := ℕ × List IPt

/-- The growth loop of `glue_lines_together`: `fuel` is the remaining
iteration budget `max_tries - tries`.  Each pass filters the working set
for segments touching the current line; exactly one match appends its
coordinates (in stored order) and drops it, any other count raises. -/
def glueLoop (touches : List IPt → List IPt → Bool) :
    ℕ → List IPt → List Seg → Except GlueError (List IPt × List Seg)
  | 0, line, extras => .ok (line, extras)
  | fuel + 1, line, extras =>
    if extras.length > 0 then
      match extras.filter (fun g => touches g.2 line) with
      | [] => .error (.badMatchCount 0)
      | [g] => glueLoop touches fuel (line ++ g.2) (extras.filter fun e => e.1 != g.1)
      | g1 :: g2 :: gs => .error (.badMatchCount (g1 :: g2 :: gs).length)
    else .ok (line, extras)

/-- `vector.glue_lines_together`: selects the seed geometry, removes it
from the working set, and runs the growth loop with the default budget of
twice the row count when `max_tries` is not given. -/
def glue_lines_together (touches : List IPt → List IPt → Bool) (gdf : List Seg)
    (seed_id : ℕ) (max_tries : Option ℕ) : Except GlueError (List IPt × List Seg) :=
  let mt := max_tries.getD (gdf.length * 2)
  match gdf.find? (fun g => g.1 == seed_id) with
  | none => .error .seedNotFound
  | some s => glueLoop touches mt s.2 (gdf.filter fun g => g.1 != seed_id)

/-- Scenario C segment 1. -/
def seg1 : List IPt := [(0, 0), (10, 10)]

/-- Scenario C segment 2. -/
def seg2 : List IPt := [(10, 20), (30, 30)]

/-- Scenario C segment 3. -/
def seg3 : List IPt := [(10, 10), (10, 20)]

/-- The degenerate isolated segment added in the error scenario. -/
def segIsolated : List IPt := [(50, 50), (50, 50)]

/-- A non-degenerate segment touching nothing else in its collection. -/
def segFar : List IPt := [(50, 50), (60, 60)]

/-- C4: gluing the three Scenario C segments from seed 1 yields the single
line through all six points in touching order, with the seam vertices
duplicated, and an empty residual collection. -/
theorem glue_scenarioC :
    glue_lines_together touchesModel [(1, seg1), (2, seg2), (3, seg3)] 1 none
      = .ok ([(0, 0), (10, 10), (10, 10), (10, 20), (10, 20), (30, 30)], []) := by
  rfl

/-- C3: adding the isolated degenerate segment `[(50,50)-(50,50)]` to the
Scenario C collection and gluing from seed 1 raises the zero-candidate
`ValueError` instead of returning the segment as residual. -/
theorem glue_isolated_raises :
    glue_lines_together touchesModel
        [(1, seg1), (2, seg2), (3, seg3), (4, segIsolated)] 1 none
      = .error (.badMatchCount 0) := by
  rfl

/-- Counterexample to C2: a collection in which one segment is reachable
from the seed (and is attached) while another touches nothing; the call
raises the zero-candidate error instead of returning the leftover segment
as residual data. -/
theorem glue_gap_counterexample :
    glue_lines_together touchesModel [(1, seg1), (3, seg3), (4, segFar)] 1 none
      = .error (.badMatchCount 0) ∧
    touchesModel seg3 seg1 = true ∧
    touchesModel segFar seg1 = false ∧ touchesModel segFar seg3 = false :=
  ⟨rfl, rfl, rfl, rfl⟩

/-- C2 (amended): whenever the working set is non-empty, budget remains,
and no remaining segment touches the current line, the growth loop raises
the zero-candidate error — it never returns the remaining segments as
residual in that situation (residual returns happen only when the
`max_tries` budget runs out first). -/
theorem glueLoop_no_touch_raises (touches : List IPt → List IPt → Bool)
    (fuel : ℕ) (line : List IPt) (extras : List Seg)
    (hne : extras ≠ []) (hfuel : 0 < fuel)
    (hnt : ∀ g ∈ extras, touches g.2 line = false) :
    glueLoop touches fuel line extras = .error (.badMatchCount 0) := by
  obtain ⟨k, rfl⟩ : ∃ k, fuel = k + 1 := ⟨fuel - 1, by omega⟩
  have hfil : extras.filter (fun g => touches g.2 line) = [] := by
    rw [List.filter_eq_nil_iff]
    intro g hg
    simp [hnt g hg]
  rw [glueLoop]
  rw [if_pos (by simpa [List.length_pos] using hne)]
  simp only [hfil]

/-- Witness for the amended C2 at a concrete mid-stitch state: segment 3
has been attached to the seed, and the far segment touches nothing. -/
theorem glueLoop_no_touch_raises_witness :
    ([(4, segFar)] : List Seg) ≠ [] ∧ 0 < 2 ∧
      glueLoop touchesModel 2 (seg1 ++ seg3) [(4, segFar)]
        = .error (.badMatchCount 0) :=
  ⟨by simp, by norm_num,
    glueLoop_no_touch_raises touchesModel 2 (seg1 ++ seg3) [(4, segFar)]
      (by simp) (by norm_num) (by decide)⟩

/-- Structure of every successful growth-loop run: the output line is the
starting line with the coordinate lists of the absorbed segments appended
in their stored orientation, so its vertex count is the starting count
plus the sum of the absorbed counts. -/
lemma glueLoop_append (touches : List IPt → List IPt → Bool) :
    ∀ (fuel : ℕ) (line : List IPt) (extras : List Seg)
      (out : List IPt × List Seg),
      glueLoop touches fuel line extras = .ok out →
      ∃ picked : List (List IPt),
        (∀ g ∈ picked, ∃ i, (i, g) ∈ extras) ∧
        out.1 = line ++ picked.flatten ∧
        out.1.length = line.length + (picked.map List.length).sum := by
  intro fuel
  induction fuel with
  | zero =>
    intro line extras out h
    rw [glueLoop] at h
    obtain rfl := (Except.ok.inj h).symm
    exact ⟨[], by simp, by simp, by simp⟩
  | succ k ih =>
    intro line extras out h
    rw [glueLoop] at h
    split at h
    · split at h
      · exact absurd h (by simp)
      next g heq =>
        obtain ⟨picked, hmem, hline, hlen⟩ := ih (line ++ g.2) _ out h
        have hg : g ∈ extras := by
          have : g ∈ extras.filter (fun g => touches g.2 line) := by
            rw [heq]
            simp
          exact (List.mem_filter.mp this).1
        refine ⟨g.2 :: picked, ?_, ?_, ?_⟩
        · intro g' hg'
          rcases List.mem_cons.mp hg' with rfl | hg'
          · exact ⟨g.1, by simpa using hg⟩
          · obtain ⟨i, hi⟩ := hmem g' hg'
            exact ⟨i, (List.mem_filter.mp hi).1⟩
        · simpa [List.append_assoc] using hline
        · simp only [List.map_cons, List.sum_cons] at hlen ⊢
          rw [hlen, List.length_append]
          omega
      · exact absurd h (by simp)
    · obtain rfl := (Except.ok.inj h).symm
      exact ⟨[], by simp, by simp, by simp⟩

/-- C10: whenever `glue_lines_together` succeeds, the output line is the
seed geometry followed by each absorbed segment's coordinate list in its
stored orientation (never reversed), and its vertex count equals the
seed's count plus the counts of all absorbed segments. -/
theorem glue_append_invariant (touches : List IPt → List IPt → Bool)
    (gdf : List Seg) (seed_id : ℕ) (mt : Option ℕ)
    (out : List IPt × List Seg)
    (h : glue_lines_together touches gdf seed_id mt = .ok out) :
    ∃ s ∈ gdf, s.1 = seed_id ∧
      ∃ picked : List (List IPt),
        (∀ g ∈ picked, ∃ i, (i, g) ∈ gdf) ∧
        out.1 = s.2 ++ picked.flatten ∧
        out.1.length = s.2.length + (picked.map List.length).sum := by
  rw [glue_lines_together] at h
  split at h
  · exact absurd h (by simp)
  next s hf =>
    obtain ⟨picked, hmem, hline, hlen⟩ := glueLoop_append touches _ _ _ _ h
    refine ⟨s, List.mem_of_find?_eq_some hf, ?_, picked, ?_, hline, hlen⟩
    · have := List.find?_some hf
      simpa using this
    · intro g hg
      obtain ⟨i, hi⟩ := hmem g hg
      exact ⟨i, (List.mem_filter.mp hi).1⟩

/-- Witness for C10 on the concrete Scenario C run. -/
theorem glue_append_invariant_witness :
    glue_lines_together touchesModel [(1, seg1), (2, seg2), (3, seg3)] 1 none
        = .ok ([(0, 0), (10, 10), (10, 10), (10, 20), (10, 20), (30, 30)], []) ∧
      ∃ s ∈ ([(1, seg1), (2, seg2), (3, seg3)] : List Seg), s.1 = 1 ∧
        ∃ picked : List (List IPt),
          (∀ g ∈ picked, ∃ i, (i, g) ∈ ([(1, seg1), (2, seg2), (3, seg3)] : List Seg)) ∧
          ([(0, 0), (10, 10), (10, 10), (10, 20), (10, 20), (30, 30)] : List IPt)
            = s.2 ++ picked.flatten ∧
          ([(0, 0), (10, 10), (10, 10), (10, 20), (10, 20), (30, 30)] : List IPt).length
            = s.2.length + (picked.map List.length).sum :=
  ⟨rfl, glue_append_invariant touchesModel [(1, seg1), (2, seg2), (3, seg3)] 1 none
    ([(0, 0), (10, 10), (10, 10), (10, 20), (10, 20), (30, 30)], []) rfl⟩

/-! ## Line metrics (`gisutils/algo.py`)

Vertices stay exact rationals; Euclidean lengths and the slope/sinuosity
ratios live in `ℝ`.  Division follows the IEEE behaviour of numpy true
division on exact operands: a nonzero value over (positive) zero gives a
signed infinity, zero over zero gives NaN; these special results are the
`FVal` constructors. -/

/-- Planar point with exact rational coordinates. -/
abbrev QPt := ℚ × ℚ

/-- Consecutive-vertex segments of a rational polyline. -/
def segsQ (l : List QPt) : List (QPt × QPt) := l.zip l.tail

/-- Euclidean distance between two rational points. -/
noncomputable def pointDist (p q : QPt) : ℝ :=
  Real.sqrt (((q.1 : ℝ) - (p.1 : ℝ)) ^ 2 + ((q.2 : ℝ) - (p.2 : ℝ)) ^ 2)

/-- `shapely` length of a polyline: the sum of its segment lengths. -/
noncomputable def lineLength (l : List QPt) : ℝ :=
  ((segsQ l).map fun s => pointDist s.1 s.2).sum

/-- A rational point as a complex number, to borrow the metric lemmas. -/
noncomputable def toC (p : QPt) : ℂ := ⟨(p.1 : ℝ), (p.2 : ℝ)⟩

/-- numpy float value: finite real, signed infinity, or NaN. -/
inductive FVal where
  | fin : ℝ → FVal
  | pinf : FVal
  | ninf : FVal
  | nan : FVal

open Classical in
/-- numpy true division of exact operands: `x / 0` is `NaN` for `x = 0`
and a signed infinity otherwise. -/
noncomputable def fdiv (a b : ℝ) : FVal :=
  if b = 0 then (if a = 0 then .nan else if 0 < a then .pinf else .ninf)
  else .fin (a / b)

/-- `numpy.abs` on float values. -/
noncomputable def fabs : FVal → FVal
  | .fin x => .fin |x|
  | .pinf => .pinf
  | .ninf => .pinf
  | .nan => .nan

/-- IEEE negation of a float value. -/
noncomputable def fneg : FVal → FVal
  | .fin x => .fin (-x)
  | .pinf => .ninf
  | .ninf => .pinf
  | .nan => .nan

/-- Multiplication by the positive literal factor (1 or 100) applied by
`average_slope`. -/
noncomputable def fscale (k : ℝ) : FVal → FVal
  | .fin x => .fin (k * x)
  | .pinf => .pinf
  | .ninf => .ninf
  | .nan => .nan

/-- numpy integer indexing: negative indices wrap once, anything outside
`[-n, n)` raises (`none`). -/
def npIndex (n : ℕ) (i : ℤ) : Option ℕ :=
  if 0 ≤ i ∧ i < (n : ℤ) then some i.toNat
  else if -(n : ℤ) ≤ i ∧ i < 0 then some (i + (n : ℤ)).toNat
  else none

/-- `dem[r, c]` on a rectangular nested list with numpy index semantics. -/
def npGet2 (dem : List (List ℚ)) (r c : ℤ) : Option ℚ :=
  (npIndex dem.length r).bind fun ri =>
    dem[ri]?.bind fun rowv =>
      (npIndex rowv.length c).bind fun ci => rowv[ci]?

/-- `algo.average_slope` (single-line form): looks up the DEM at the
pixel of the line's first and last vertex, divides the elevation
difference by the shapely length, optionally takes the absolute value,
and scales by 100 when `as_pct` is set.  `none` models the exceptions of
the Python pipeline (empty coordinate list, singular affine,
out-of-bounds DEM indexing). -/
noncomputable def average_slope (line : List QPt) (dem : List (List ℚ))
    (A : AffineMap) (absolute aspct : Bool) : Option FVal :=
  match line.head?, line.getLast? with
  | some p1, some p2 =>
    match xy_to_rowcol p1.1 p1.2 A, xy_to_rowcol p2.1 p2.2 A with
    | some rc1, some rc2 =>
      match npGet2 dem rc1.1 rc1.2, npGet2 dem rc2.1 rc2.2 with
      | some d1, some d2 =>
        let slope := fdiv (((d2 - d1 : ℚ) : ℝ)) (lineLength line)
        some (fscale (if aspct then 100 else 1)
          (if absolute then fabs slope else slope))
      | _, _ => none
    | _, _ => none
  | _, _ => none

/-- `algo.compute_sinuosity` (single-line form): shapely length over the
straight-line distance between the first and last vertex, then
`numpy.abs`. -/
noncomputable def compute_sinuosity (line : List QPt) : Option FVal :=
  match line.head?, line.getLast? with
  | some p1, some p2 => some (fabs (fdiv (lineLength line) (pointDist p1 p2)))
  | _, _ => none

/-- `pointDist` is the metric distance of the complex embedding. -/
lemma pointDist_eq_dist (p q : QPt) : pointDist p q = dist (toC p) (toC q) := by
  rw [Complex.dist_eq, Complex.abs_apply, Complex.normSq_apply, pointDist]
  congr 1
  simp only [toC, Complex.sub_re, Complex.sub_im]
  ring

lemma pointDist_comm (p q : QPt) : pointDist p q = pointDist q p := by
  simp only [pointDist_eq_dist]
  exact dist_comm _ _

lemma pointDist_self (p : QPt) : pointDist p p = 0 := by
  simp only [pointDist_eq_dist]
  exact dist_self _

lemma pointDist_nonneg (p q : QPt) : 0 ≤ pointDist p q := by
  simp only [pointDist_eq_dist]
  exact dist_nonneg

lemma pointDist_triangle (p q r : QPt) :
    pointDist p r ≤ pointDist p q + pointDist q r := by
  simp only [pointDist_eq_dist]
  exact dist_triangle _ _ _

lemma pointDist_pos (p q : QPt) (h : p ≠ q) : 0 < pointDist p q := by
  simp only [pointDist_eq_dist]
  rw [dist_pos]
  intro hc
  apply h
  have h1 : ((p.1 : ℝ)) = (q.1 : ℝ) := congrArg Complex.re hc
  have h2 : ((p.2 : ℝ)) = (q.2 : ℝ) := congrArg Complex.im hc
  exact Prod.ext_iff.mpr ⟨by exact_mod_cast h1, by exact_mod_cast h2⟩

lemma lineLength_cons_cons (p q : QPt) (l : List QPt) :
    lineLength (p :: q :: l) = pointDist p q + lineLength (q :: l) := by
  simp [lineLength, segsQ]

lemma lineLength_nonneg (l : List QPt) : 0 ≤ lineLength l := by
  apply List.sum_nonneg
  intro x hx
  simp only [List.mem_map] at hx
  obtain ⟨s, _, rfl⟩ := hx
  exact pointDist_nonneg _ _

/-- The straight-line distance between first and last vertex never
exceeds the path length. -/
lemma dist_head_getLast_le :
    ∀ (l : List QPt) (p q : QPt), l.head? = some p → l.getLast? = some q →
      pointDist p q ≤ lineLength l := by
  intro l
  induction l with
  | nil => intro p q hp _; simp at hp
  | cons a t ih =>
    intro p q hp hq
    have hap : a = p := by simpa using hp
    subst hap
    cases t with
    | nil =>
      have haq : a = q := by simpa using hq
      subst haq
      rw [pointDist_self]
      exact lineLength_nonneg _
    | cons b t2 =>
      rw [List.getLast?_cons_cons] at hq
      have hrec := ih b q rfl hq
      calc pointDist a q ≤ pointDist a b + pointDist b q := pointDist_triangle _ _ _
        _ ≤ pointDist a b + lineLength (b :: t2) := by linarith
        _ = lineLength (a :: b :: t2) := (lineLength_cons_cons _ _ _).symm

lemma lineLength_concat2 :
    ∀ (l : List QPt) (y x : QPt), l.getLast? = some y →
      lineLength (l ++ [x]) = lineLength l + pointDist y x := by
  intro l
  induction l with
  | nil => intro y x hy; simp at hy
  | cons a t ih =>
    intro y x hy
    cases t with
    | nil =>
      have : a = y := by simpa using hy
      subst this
      simp [lineLength, segsQ, pointDist_self]
    | cons b t2 =>
      rw [List.getLast?_cons_cons] at hy
      have : (a :: b :: t2) ++ [x] = a :: ((b :: t2) ++ [x]) := rfl
      rw [this, show (b :: t2) ++ [x] = b :: (t2 ++ [x]) from rfl,
        lineLength_cons_cons, show b :: (t2 ++ [x]) = (b :: t2) ++ [x] from rfl,
        ih y x hy, lineLength_cons_cons]
      ring

/-- Reversing a polyline preserves its length. -/
lemma lineLength_reverse (l : List QPt) : lineLength l.reverse = lineLength l := by
  induction l with
  | nil => rfl
  | cons a t ih =>
    cases t with
    | nil => rfl
    | cons b t2 =>
      rw [List.reverse_cons,
        lineLength_concat2 (b :: t2).reverse b a (by rw [List.getLast?_reverse]; rfl),
        ih, lineLength_cons_cons, pointDist_comm]
      ring

lemma fdiv_of_ne (a b : ℝ) (hb : b ≠ 0) : fdiv a b = FVal.fin (a / b) := by
  unfold fdiv
  rw [if_neg hb]

lemma fdiv_zero_zero : fdiv 0 0 = FVal.nan := by
  unfold fdiv
  rw [if_pos rfl, if_pos rfl]

lemma fdiv_pos_zero (a : ℝ) (ha : 0 < a) : fdiv a 0 = FVal.pinf := by
  unfold fdiv
  rw [if_pos rfl, if_neg (ne_of_gt ha), if_pos ha]

/-- C8: with `absolute=False`, the average slope of the reversed line is
the exact negation of the original (for a line of positive length whose
endpoint lookups succeed). -/
theorem average_slope_reverse (line : List QPt) (dem : List (List ℚ))
    (A : AffineMap) (aspct : Bool) (v : FVal)
    (hlen : 0 < lineLength line)
    (hv : average_slope line dem A false aspct = some v) :
    average_slope line.reverse dem A false aspct = some (fneg v) := by
  cases hh : line.head? with
  | none => rw [average_slope, hh] at hv; exact absurd hv (by simp)
  | some p1 =>
  cases hl : line.getLast? with
  | none =>
    simp only [average_slope, hh, hl] at hv
    exact Option.noConfusion hv
  | some p2 =>
  simp only [average_slope, hh, hl] at hv
  cases hx1 : xy_to_rowcol p1.1 p1.2 A with
  | none =>
    simp only [hx1] at hv
    exact Option.noConfusion hv
  | some rc1 =>
  cases hx2 : xy_to_rowcol p2.1 p2.2 A with
  | none =>
    simp only [hx1, hx2] at hv
    exact Option.noConfusion hv
  | some rc2 =>
  simp only [hx1, hx2] at hv
  cases hd1 : npGet2 dem rc1.1 rc1.2 with
  | none =>
    simp only [hd1] at hv
    exact Option.noConfusion hv
  | some d1 =>
  cases hd2 : npGet2 dem rc2.1 rc2.2 with
  | none =>
    simp only [hd1, hd2] at hv
    exact Option.noConfusion hv
  | some d2 =>
  simp only [hd1, hd2, Bool.false_eq_true, if_false, Option.some.injEq] at hv
  subst hv
  have hrh : line.reverse.head? = some p2 := by rw [List.head?_reverse, hl]
  have hrl : line.reverse.getLast? = some p1 := by rw [List.getLast?_reverse, hh]
  simp only [average_slope, hrh, hrl, hx2, hx1, hd2, hd1, Bool.false_eq_true, if_false,
    Option.some.injEq, lineLength_reverse]
  have hLne : lineLength line ≠ 0 := ne_of_gt hlen
  rw [fdiv_of_ne _ _ hLne, fdiv_of_ne _ _ hLne]
  show fscale (if aspct then (100 : ℝ) else 1) (FVal.fin (((d1 - d2 : ℚ) : ℝ) / lineLength line))
    = fneg (fscale (if aspct then (100 : ℝ) else 1) (FVal.fin (((d2 - d1 : ℚ) : ℝ) / lineLength line)))
  rw [fscale, fscale, fneg]
  congr 1
  push_cast
  ring

/-- Witness for C8: a concrete horizontal line over a one-row DEM with the
identity affine; the reversed slope is the negated slope. -/
theorem average_slope_reverse_witness :
    0 < lineLength [((0 : ℚ), (0 : ℚ)), (3, 0)] ∧
      average_slope [((0 : ℚ), (0 : ℚ)), (3, 0)] [[(1 : ℚ), 2, 3, 7]]
          (AffineMap.mk 1 0 0 0 1 0) false true = some (FVal.fin 200) ∧
      average_slope ([((0 : ℚ), (0 : ℚ)), (3, 0)]).reverse [[(1 : ℚ), 2, 3, 7]]
          (AffineMap.mk 1 0 0 0 1 0) false true = some (fneg (FVal.fin 200)) := by
  have hL : lineLength [((0 : ℚ), (0 : ℚ)), (3, 0)] = 3 := by
    simp [lineLength, segsQ, pointDist]
  have hlen : 0 < lineLength [((0 : ℚ), (0 : ℚ)), (3, 0)] := by rw [hL]; norm_num
  have hx0 : xy_to_rowcol (0 : ℚ) (0 : ℚ) (AffineMap.mk 1 0 0 0 1 0) = some (0, 0) := by
    rw [xy_to_rowcol, AffineMap.invert]
    norm_num [AffineMap.det, rowcol_to_xy]
  have hx3 : xy_to_rowcol (3 : ℚ) (0 : ℚ) (AffineMap.mk 1 0 0 0 1 0) = some (0, 3) := by
    rw [xy_to_rowcol, AffineMap.invert]
    norm_num [AffineMap.det, rowcol_to_xy]
  have hv : average_slope [((0 : ℚ), (0 : ℚ)), (3, 0)] [[(1 : ℚ), 2, 3, 7]]
      (AffineMap.mk 1 0 0 0 1 0) false true = some (FVal.fin 200) := by
    simp only [average_slope, List.head?_cons, List.getLast?_cons_cons,
      List.getLast?_singleton, hx0, hx3, hL,
      show npGet2 [[(1 : ℚ), 2, 3, 7]] 0 0 = some 1 from rfl,
      show npGet2 [[(1 : ℚ), 2, 3, 7]] 0 3 = some 7 from rfl,
      Bool.false_eq_true, if_false]
    rw [fdiv_of_ne _ _ (by norm_num : (3 : ℝ) ≠ 0)]
    simp only [fscale, if_true]
    norm_num
  exact ⟨hlen, hv, average_slope_reverse _ _ _ _ _ hlen hv⟩

/-- A line whose vertices are all the same point has shapely length 0. -/
lemma lineLength_all_eq (l : List QPt) (p : QPt) (hall : ∀ x ∈ l, x = p) :
    lineLength l = 0 := by
  rw [lineLength]
  apply List.sum_eq_zero
  intro x hx
  simp only [List.mem_map] at hx
  obtain ⟨s, hs, rfl⟩ := hx
  rw [segsQ] at hs
  have h1 := (List.of_mem_zip hs).1
  have h2 := List.mem_of_mem_tail (List.of_mem_zip hs).2
  rw [hall _ h1, hall _ h2, pointDist_self]

/-- Counterexample to C5: on the zero-length line that repeats the point
`(0, 0)` (with an in-bounds DEM lookup through the identity affine),
`average_slope` evaluates `0 / 0` and returns NaN, not the claimed
infinity. -/
theorem average_slope_degenerate_cex :
    average_slope [((0 : ℚ), (0 : ℚ)), (0, 0)] [[(3 : ℚ)]]
        (AffineMap.mk 1 0 0 0 1 0) true true = some FVal.nan ∧
      FVal.nan ≠ FVal.pinf := by
  constructor
  · have hx0 : xy_to_rowcol (0 : ℚ) (0 : ℚ) (AffineMap.mk 1 0 0 0 1 0) = some (0, 0) := by
      rw [xy_to_rowcol, AffineMap.invert]
      norm_num [AffineMap.det, rowcol_to_xy]
    have hlen : lineLength [((0 : ℚ), (0 : ℚ)), (0, 0)] = 0 := by
      simp [lineLength, segsQ, pointDist]
    simp only [average_slope, List.head?_cons, List.getLast?_cons_cons,
      List.getLast?_singleton, hx0, hlen,
      show npGet2 [[(3 : ℚ)]] 0 0 = some 3 from rfl]
    norm_num [fdiv_zero_zero, fabs, fscale]
  · intro h
    exact FVal.noConfusion h

/-- C5 (amended): for a zero-length (all-vertices-equal) line whose pixel
resolves inside the DEM, `average_slope` returns the NaN sentinel of the
`0 / 0` division — not infinity — and raises no exception. -/
theorem average_slope_degenerate_nan (line : List QPt) (dem : List (List ℚ))
    (A : AffineMap) (absolute aspct : Bool) (p : QPt) (rc : ℤ × ℤ) (d : ℚ)
    (hhead : line.head? = some p) (hall : ∀ x ∈ line, x = p)
    (hxy : xy_to_rowcol p.1 p.2 A = some rc)
    (hdem : npGet2 dem rc.1 rc.2 = some d) :
    average_slope line dem A absolute aspct = some FVal.nan := by
  have hne : line ≠ [] := by
    intro h
    rw [h] at hhead
    exact Option.noConfusion hhead
  have hlast : line.getLast? = some p := by
    rw [List.getLast?_eq_getLast _ hne]
    exact congrArg some (hall _ (List.getLast_mem hne))
  have hlen : lineLength line = 0 := lineLength_all_eq line p hall
  simp only [average_slope, hhead, hlast, hxy, hdem, hlen, sub_self, Rat.cast_zero,
    fdiv_zero_zero]
  cases absolute <;> cases aspct <;> simp [fabs, fscale]

/-- Witness for the amended C5 at the concrete degenerate line. -/
theorem average_slope_degenerate_nan_witness :
    (([((0 : ℚ), (0 : ℚ)), (0, 0)] : List QPt).head? = some (0, 0)) ∧
      (∀ x ∈ ([((0 : ℚ), (0 : ℚ)), (0, 0)] : List QPt), x = (0, 0)) ∧
      xy_to_rowcol (0 : ℚ) (0 : ℚ) (AffineMap.mk 1 0 0 0 1 0) = some (0, 0) ∧
      npGet2 [[(3 : ℚ)]] 0 0 = some 3 ∧
      average_slope [((0 : ℚ), (0 : ℚ)), (0, 0)] [[(3 : ℚ)]]
        (AffineMap.mk 1 0 0 0 1 0) false false = some FVal.nan := by
  have hx0 : xy_to_rowcol (0 : ℚ) (0 : ℚ) (AffineMap.mk 1 0 0 0 1 0) = some (0, 0) := by
    rw [xy_to_rowcol, AffineMap.invert]
    norm_num [AffineMap.det, rowcol_to_xy]
  have hall : ∀ x ∈ ([((0 : ℚ), (0 : ℚ)), (0, 0)] : List QPt), x = (0, 0) := by
    intro x hx
    rcases List.mem_cons.mp hx with rfl | hx
    · rfl
    · rcases List.mem_cons.mp hx with rfl | hx
      · rfl
      · exact absurd hx (List.not_mem_nil x)
  exact ⟨rfl, hall, hx0, rfl,
    average_slope_degenerate_nan _ _ _ false false (0, 0) (0, 0) 3 rfl hall hx0 rfl⟩

/-- C6: `compute_sinuosity` is at least 1 on any line with distinct
endpoints, and returns positive infinity (a defined value, not an error)
on any closed loop of positive length. -/
theorem compute_sinuosity_props (line : List QPt) (p1 p2 : QPt)
    (h1 : line.head? = some p1) (h2 : line.getLast? = some p2) :
    (p1 ≠ p2 → ∃ s : ℝ, compute_sinuosity line = some (FVal.fin s) ∧ 1 ≤ s) ∧
    (p1 = p2 → 0 < lineLength line → compute_sinuosity line = some FVal.pinf) := by
  constructor
  · intro hne
    have hdpos : 0 < pointDist p1 p2 := pointDist_pos _ _ hne
    have htri : pointDist p1 p2 ≤ lineLength line := dist_head_getLast_le line p1 p2 h1 h2
    refine ⟨|lineLength line / pointDist p1 p2|, ?_, ?_⟩
    · simp only [compute_sinuosity, h1, h2, fdiv_of_ne _ _ (ne_of_gt hdpos), fabs]
    · rw [abs_of_nonneg (div_nonneg (lineLength_nonneg _) (le_of_lt hdpos))]
      rw [one_le_div hdpos]
      exact htri
  · intro heq hL
    subst heq
    simp only [compute_sinuosity, h1, h2, pointDist_self,
      fdiv_pos_zero _ hL, fabs]

/-- Witness for C6: the straight segment `(0,0)-(3,0)` has sinuosity ≥ 1,
and the closed loop `(0,0)-(3,0)-(0,0)` has sinuosity `+∞`. -/
theorem compute_sinuosity_props_witness :
    (∃ s : ℝ, compute_sinuosity [((0 : ℚ), (0 : ℚ)), (3, 0)] = some (FVal.fin s) ∧ 1 ≤ s) ∧
      compute_sinuosity [((0 : ℚ), (0 : ℚ)), (3, 0), (0, 0)] = some FVal.pinf := by
  constructor
  · exact (compute_sinuosity_props [((0 : ℚ), (0 : ℚ)), (3, 0)] (0, 0) (3, 0) rfl rfl).1
      (by intro h; exact absurd (congrArg Prod.fst h) (by norm_num))
  · refine (compute_sinuosity_props [((0 : ℚ), (0 : ℚ)), (3, 0), (0, 0)] (0, 0) (0, 0)
      rfl rfl).2 rfl ?_
    have h1 : pointDist ((0 : ℚ), (0 : ℚ)) ((3 : ℚ), (0 : ℚ)) = 3 := by
      simp [pointDist]
    have h2 : pointDist ((3 : ℚ), (0 : ℚ)) ((0 : ℚ), (0 : ℚ)) = 3 := by
      rw [pointDist_comm]
      exact h1
    rw [show lineLength [((0 : ℚ), (0 : ℚ)), (3, 0), (0, 0)]
        = pointDist ((0 : ℚ), (0 : ℚ)) ((3 : ℚ), (0 : ℚ))
          + lineLength [((3 : ℚ), (0 : ℚ)), (0, 0)] from lineLength_cons_cons _ _ _]
    rw [show lineLength [((3 : ℚ), (0 : ℚ)), (0, 0)]
        = pointDist ((3 : ℚ), (0 : ℚ)) ((0 : ℚ), (0 : ℚ)) + lineLength [((0 : ℚ), (0 : ℚ))]
        from lineLength_cons_cons _ _ _]
    rw [h1, h2]
    have : lineLength [((0 : ℚ), (0 : ℚ))] = 0 := by simp [lineLength, segsQ]
    rw [this]
    norm_num

/-! ## Point sampling (`gisutils/vector.py`, `line_to_point`) -/

open Classical in
/-- Modelled from the spec: shapely `interpolate` (external collaborator
of `vector.py`) — the point at arc-length `dd` along the line, clamped to
the final vertex beyond the total length.  `line_to_point` never calls it
on an empty line, whose `arange` is empty. -/
noncomputable def interpolate : List QPt → ℝ → ℝ × ℝ
  | [], _ => (0, 0)
  | [p], _ => ((p.1 : ℝ), (p.2 : ℝ))
  | p :: q :: rest, dd =>
    let s := pointDist p q
    if dd ≤ s then
      ((p.1 : ℝ) + (dd / s) * ((q.1 : ℝ) - (p.1 : ℝ)),
       (p.2 : ℝ) + (dd / s) * ((q.2 : ℝ) - (p.2 : ℝ)))
    else interpolate (q :: rest) (dd - s)

/-- Modelled from the spec: `numpy.arange(start, stop, step)` in exact
arithmetic — `⌈(stop - start)/step⌉` evenly spaced values from `start`. -/
noncomputable def arange (start stop step : ℝ) : List ℝ :=
  (List.range ⌈(stop - start) / step⌉₊).map fun i : ℕ => start + (i : ℝ) * step

/-- `vector.line_to_point`: shapely points sampled every `interval` units
of arc length from `0` up to (excluding) the line's length. -/
noncomputable def line_to_point (line : List QPt) (interval : ℝ) : List (ℝ × ℝ) :=
  (arange 0 (lineLength line) interval).map fun dd => interpolate line dd

/-- Interpolating at arc-length 0 returns the first vertex. -/
lemma interpolate_zero (l : List QPt) (p : QPt) (h : l.head? = some p) :
    interpolate l 0 = ((p.1 : ℝ), (p.2 : ℝ)) := by
  cases l with
  | nil => exact Option.noConfusion h
  | cons a t =>
    have : a = p := by simpa using h
    subst this
    cases t with
    | nil => rfl
    | cons b t2 =>
      simp only [interpolate]
      rw [if_pos (pointDist_nonneg a b)]
      simp

/-- C9: for a line of positive length `L` and a positive interval `d`,
`line_to_point` returns exactly the interpolated points at the positions
`0, d, 2d, …` (all and only the multiples of `d` strictly below `L`, in
increasing index order), and the first returned point is the line's start
vertex. -/
theorem line_to_point_samples (line : List QPt) (dd : ℝ)
    (hL : 0 < lineLength line) (hd : 0 < dd) :
    line_to_point line dd
        = (List.range ⌈lineLength line / dd⌉₊).map
            (fun i : ℕ => interpolate line ((i : ℝ) * dd)) ∧
      (∀ i : ℕ, i < ⌈lineLength line / dd⌉₊ → (i : ℝ) * dd < lineLength line) ∧
      (∀ i : ℕ, (i : ℝ) * dd < lineLength line → i < ⌈lineLength line / dd⌉₊) ∧
      (line_to_point line dd).head?
        = line.head?.map (fun p => ((p.1 : ℝ), (p.2 : ℝ))) := by
  have hmap : line_to_point line dd
      = (List.range ⌈lineLength line / dd⌉₊).map
          (fun i : ℕ => interpolate line ((i : ℝ) * dd)) := by
    rw [line_to_point, arange, sub_zero, List.map_map]
    refine List.map_congr_left ?_
    intro i _
    simp only [Function.comp_apply, zero_add]
  refine ⟨hmap, ?_, ?_, ?_⟩
  · intro i hi
    have h1 : (i : ℝ) < lineLength line / dd := Nat.lt_ceil.mp hi
    exact (lt_div_iff₀ hd).mp h1
  · intro i hi
    exact Nat.lt_ceil.mpr ((lt_div_iff₀ hd).mpr hi)
  · have hk : 0 < ⌈lineLength line / dd⌉₊ := Nat.ceil_pos.mpr (div_pos hL hd)
    obtain ⟨k, hk2⟩ : ∃ k, ⌈lineLength line / dd⌉₊ = k + 1 :=
      ⟨⌈lineLength line / dd⌉₊ - 1, by omega⟩
    rw [hmap, hk2, List.range_succ_eq_map]
    cases hh : line.head? with
    | none =>
      have : line = [] := List.head?_eq_none_iff.mp hh
      rw [this] at hL
      simp [lineLength, segsQ] at hL
    | some p =>
      simp only [List.map_cons, List.head?_cons, Option.map_some', Nat.cast_zero, zero_mul]
      rw [interpolate_zero line p hh]

/-- Witness for C9 on a concrete segment of length 3 sampled every 2
units. -/
theorem line_to_point_samples_witness :
    0 < lineLength [((0 : ℚ), (0 : ℚ)), (3, 0)] ∧ (0 : ℝ) < 2 ∧
      (line_to_point [((0 : ℚ), (0 : ℚ)), (3, 0)] 2
          = (List.range ⌈lineLength [((0 : ℚ), (0 : ℚ)), (3, 0)] / 2⌉₊).map
              (fun i : ℕ => interpolate [((0 : ℚ), (0 : ℚ)), (3, 0)] ((i : ℝ) * 2)) ∧
        (∀ i : ℕ, i < ⌈lineLength [((0 : ℚ), (0 : ℚ)), (3, 0)] / 2⌉₊ →
          (i : ℝ) * 2 < lineLength [((0 : ℚ), (0 : ℚ)), (3, 0)]) ∧
        (∀ i : ℕ, (i : ℝ) * 2 < lineLength [((0 : ℚ), (0 : ℚ)), (3, 0)] →
          i < ⌈lineLength [((0 : ℚ), (0 : ℚ)), (3, 0)] / 2⌉₊) ∧
        (line_to_point [((0 : ℚ), (0 : ℚ)), (3, 0)] 2).head?
          = ([((0 : ℚ), (0 : ℚ)), (3, 0)] : List QPt).head?.map
              (fun p => ((p.1 : ℝ), (p.2 : ℝ)))) := by
  have h0 : 0 < lineLength [((0 : ℚ), (0 : ℚ)), (3, 0)] := by
    have hL : lineLength [((0 : ℚ), (0 : ℚ)), (3, 0)] = 3 := by
      simp [lineLength, segsQ, pointDist]
    rw [hL]
    norm_num
  exact ⟨h0, by norm_num, line_to_point_samples _ 2 h0 (by norm_num)⟩

end GisUtils
